import Mathlib

/-!
Shallow embedding of the MinHash near-duplicate detector in src/src/main.cpp,
together with proofs of the specified properties.

Modelling conventions:
- Byte strings become List Char (the program only distinguishes bytes through
  the C isalnum predicate and byte equality, both of which List Char preserves).
- Machine integers become Nat; unsigned 64-bit arithmetic is mirrored with an
  explicit reduction modulo 2 to the 64 where the C++ computes in uint64_t.
- double becomes the rationals; the only double operations in the program are
  subtraction, division and an order comparison, whose exact-value semantics
  is what the specification reasons about.
- std::unordered_set iteration order is represented by the insertion-order
  list of inserted elements; all downstream consumers are invariant under
  permutation and duplication of that list, which is proved where relevant.
-/

/-! ## Tokenizer (class TokenGen) -/

/-- Embedding of std::string_view::find_first_of over the delimiter set,
given as the characteristic predicate d of the delimiter string: index of
the first character satisfying d, if any. -/
def findDelim (d : Char → Bool) : List Char → Option Nat
  | [] => none
  | c :: cs => if d c then some 0 else (findDelim d cs).map (· + 1)

/-- Embedding of one call of TokenGen::operator(): returns the yielded token
and the new remaining-input state.  The C++ loop sets r to the prefix before
the first delimiter and the state to the suffix after it; it returns r when
r is non-empty, returns the empty token when the state has been exhausted,
and otherwise repeats.  A repeat happens exactly when the first character is
a delimiter, so the loop is rendered as structural recursion on the tail;
when the head c is not a delimiter the first delimiter of c :: cs sits at
position 1 + j with j the first delimiter position of cs, so the prefix
before it is c :: cs.take j and the suffix after it is cs.drop (j + 1). -/
def tokenStep (d : Char → Bool) : List Char → List Char × List Char
  | [] => ([], [])
  | c :: cs =>
    if d c then
      if cs.isEmpty then ([], []) else tokenStep d cs
    else
      match findDelim d cs with
      | none => (c :: cs, [])
      | some j => (c :: cs.take j, cs.drop (j + 1))

/-- The token stream consumed by Deduplicator::extract_features: while the
generator converts to true (remaining input non-empty), call it and collect
the yielded token.  Each call strictly shrinks the remaining input, so the
length of the input is enough fuel. -/
def tokenGo (d : Char → Bool) : Nat → List Char → List (List Char)
  | 0, _ => []
  | fuel + 1, sv =>
    if sv.isEmpty then [] else (tokenStep d sv).1 :: tokenGo d fuel (tokenStep d sv).2

/-- All tokens yielded by a TokenGen over sv, in order, including the final
empty token the generator can yield (see tokenizer_empty_token_cex). -/
def tokenList (d : Char → Bool) (sv : List Char) : List (List Char) :=
  tokenGo d sv.length sv

/-- The delimiter set built in the Deduplicator constructor: every byte for
which isalnum is false.  In the C locale isalnum accepts exactly the ASCII
letters and digits, which is Char.isAlpha together with Char.isDigit. -/
def nonAlnum (c : Char) : Bool := !(c.isAlpha || c.isDigit)

/-- Modelled from the spec: the decomposition of a text into its maximal
runs of non-delimiter characters ("Token: a maximal run of alphanumeric
bytes; never empty").  This is the reference the tokenizer is compared
against; it is not part of the source. -/
def runsGo (d : Char → Bool) : Nat → List Char → List (List Char)
  | 0, _ => []
  | fuel + 1, sv =>
    match sv with
    | [] => []
    | c :: cs =>
      if d c then runsGo d fuel cs
      else
        match findDelim d cs with
        | none => [c :: cs]
        | some j => (c :: cs.take j) :: runsGo d fuel (cs.drop j)

/-- Modelled from the spec: maximal non-delimiter runs of a text. -/
def maxRuns (d : Char → Bool) (sv : List Char) : List (List Char) :=
  runsGo d sv.length sv

/-! ## MinHasher -/

/-- The fixed prime modulus kHashPrime of class MinHasher. -/
def kHashPrime : Nat := 2038074743

/-- Embedding of the per-feature hash in MinHasher::compute_signature:
the C++ evaluates (1ULL + idx) * a + b in uint64_t arithmetic (hence the
reductions modulo 2 to the 64) and reduces modulo kHashPrime; the final
static cast to uint32_t is value-preserving because the result is below
kHashPrime, which is below 2 to the 32. -/
def hashVal (a b f : Nat) : Nat :=
  ((1 + f) % 2 ^ 64 * a % 2 ^ 64 + b) % 2 ^ 64 % kHashPrime

/-- One iteration of the outer loop of MinHasher::compute_signature: for a
single feature f, update every slot i of the signature to the minimum of
its current value and hashVal a_i b_i f.  The coefficient vectors a_ and b_
are carried as one list ab of pairs. -/
def sig_update (ab : List (Nat × Nat)) (sig : List Nat) (f : Nat) : List Nat :=
  (sig.zip ab).map fun p => min p.1 (hashVal p.2.1 p.2.2 f)

/-- Embedding of MinHasher::compute_signature: start from a vector of
num_hashes slots all equal to the sentinel kHashPrime and fold the slot
update over the iteration order of the feature set. -/
def compute_signature (ab : List (Nat × Nat)) (features : List Nat) : List Nat :=
  features.foldl (sig_update ab) (List.replicate ab.length kHashPrime)

/-- The agreement count of MinHasher::jaccard_distance: the number of
positions where the two signatures hold equal values.  The C++ loop runs
over the indices of the first signature; both call sites pass signatures of
equal length, which the zip mirrors. -/
def matchCount (a b : List Nat) : Nat :=
  (a.zip b).countP fun p => p.1 == p.2

/-- Embedding of MinHasher::jaccard_distance: one minus the agreement count
divided by the length of the first signature, as exact rational arithmetic
in place of double.  The division is as unguarded as in the source: for an
empty first argument the rational division yields the junk value zero where
the double division yields NaN; in both semantics the result is not the
distance zero that identical signatures produce. -/
def jaccard_distance (a b : List Nat) : ℚ :=
  1 - (matchCount a b : ℚ) / (a.length : ℚ)

/-- Modelled from the spec: the seeded deterministic generator std::mt19937
(external library code, not under src/).  Only two facts about it are used
by any claim, both guaranteed by the spec: it is a pure function of the
seed and of the draw index, and it supplies raw material that
uniform_int folds into the required range.  The concrete mixing below is
an arbitrary deterministic choice standing in for the Mersenne Twister
stream, whose exact values no claim depends on. -/
def mt19937_stream (seed k : Nat) : Nat :=
  (seed * 6364136223846793005 + (k + 1) * 1442695040888963407) % 2 ^ 64

/-- Modelled from the spec: std::uniform_int_distribution over the closed
interval from lo to hi (external library code).  The standard only
guarantees that the result lies in the interval and is a deterministic
function of the generator state; the residue construction below realises
exactly that contract. -/
def uniform_int (lo hi raw : Nat) : Nat := lo + raw % (hi + 1 - lo)

/-- Embedding of the MinHasher constructor: draw the coefficient pairs
(a_i, b_i) in order, a_i uniform on 1 to kHashPrime - 1 and b_i uniform on
0 to kHashPrime - 1, from the seeded generator.  The family is a plain
immutable value, never rebuilt or mutated after construction, matching the
private const-after-construction vectors of the source. -/
def hashFamily (num_hashes seed : Nat) : List (Nat × Nat) :=
  (List.range num_hashes).map fun i =>
    (uniform_int 1 (kHashPrime - 1) (mt19937_stream seed (2 * i)),
     uniform_int 0 (kHashPrime - 1) (mt19937_stream seed (2 * i + 1)))

/-! ## Feature extraction (Deduplicator::extract_features) -/

/-- Modelled from the spec: MurmurHash3_x86_32 with seed 0, whose
implementation lives in include/MurmurHash3.h and is not under src/.  The
spec requires only "a deterministic 32-bit general-purpose hash (seeded
with a fixed constant)"; it is modelled as a concrete deterministic 32-bit
polynomial hash of the byte string, and no claim depends on its values
beyond determinism and the 32-bit range. -/
def murmur3_32 (s : List Char) : Nat :=
  s.foldl (fun h c => (h * 31 + c.toNat) % 2 ^ 32) 17

/-- The n-gram concatenation built in extract_features: every window token
followed by the separator byte. -/
def combineWindow (window : List (List Char)) : List Char :=
  window.foldl (fun acc w => acc ++ w ++ ['_']) []

/-- One iteration of the token loop of extract_features, acting on the pair
of the sliding window and the list of feature indices inserted so far:
append the token to the window, evict the oldest entry when the window
exceeds ngrams, and when the window holds exactly ngrams tokens insert the
feature index of its concatenation. -/
def featStep (ngrams num_features : Nat) (st : List (List Char) × List Nat)
    (token : List Char) : List (List Char) × List Nat :=
  let w1 := st.1 ++ [token]
  let w2 := if ngrams < w1.length then w1.tail else w1
  (w2,
   if w2.length = ngrams then
     st.2 ++ [murmur3_32 (combineWindow w2) % num_features]
   else st.2)

/-- Embedding of Deduplicator::extract_features: fold the window step over
the token stream of the text and return the inserted feature indices in
insertion order (the unordered_set is represented by this list; every
consumer is insensitive to its order and duplicates). -/
def extract_features (ngrams num_features : Nat) (text : List Char) : List Nat :=
  ((tokenList nonAlnum text).foldl (featStep ngrams num_features) ([], [])).2

/-! ## Deduplicator -/

/-- The state a constructed Deduplicator carries: the configuration fields
and the hash family of its MinHasher member. -/
structure DedupConfig where
  ngrams : Nat
  num_features : Nat
  threshold : ℚ
  family : List (Nat × Nat)
deriving Repr, DecidableEq

/-- Embedding of the Deduplicator constructor: it stores its arguments and
builds the MinHasher (seed defaulted to 1 as in the source) and the
delimiter string; it performs no validation of any argument and has no
failure path. -/
def mkDeduplicator (ngrams num_hashes : Nat) (threshold : ℚ) (num_features : Nat)
    (seed : Nat := 1) : DedupConfig :=
  { ngrams := ngrams
    num_features := num_features
    threshold := threshold
    family := hashFamily num_hashes seed }

/-- Modelled from the spec: the validity predicate of section 7, "raised at
construction when ngrams = 0, num_hashes = 0, num_features = 0, or
threshold outside the unit interval".  No counterpart exists in the
source; this definition follows the spec's words and is compared against
the source constructor. -/
def configOk (ngrams num_hashes num_features : Nat) (threshold : ℚ) : Bool :=
  decide (ngrams ≠ 0) && decide (num_hashes ≠ 0) && decide (num_features ≠ 0) &&
    decide (0 ≤ threshold) && decide (threshold ≤ 1)

/-- The signature the pipeline computes for document k of the corpus. -/
def sigOf (cfg : DedupConfig) (docs : List (List Char)) (k : Nat) : List Nat :=
  compute_signature cfg.family (extract_features cfg.ngrams cfg.num_features (docs.getD k []))

/-- Embedding of Deduplicator::process: compute one signature per document,
then for every i and every j above i compare the signatures and report the
pair together with one minus its distance when the distance is strictly
below the threshold.  A report is the triple of the two document positions
and the printed similarity. -/
def process (cfg : DedupConfig) (docs : List (List Char)) : List (Nat × Nat × ℚ) :=
  let sigs := docs.map fun doc =>
    compute_signature cfg.family (extract_features cfg.ngrams cfg.num_features doc)
  (List.range docs.length).flatMap fun i =>
    ((List.range docs.length).filter fun j => i < j).filterMap fun j =>
      if jaccard_distance (sigs.getD i []) (sigs.getD j []) < cfg.threshold then
        some (i, j, 1 - jaccard_distance (sigs.getD i []) (sigs.getD j []))
      else none

example : tokenList nonAlnum ('a' :: '!' :: '!' :: []) = [['a'], []] := by decide

example : tokenList nonAlnum ('a' :: ' ' :: 'b' :: 'c' :: []) = [['a'], ['b', 'c']] := by decide

example : maxRuns nonAlnum ('a' :: '!' :: '!' :: []) = [['a']] := by decide

example : maxRuns nonAlnum ('!' :: 'a' :: 'b' :: '!' :: 'c' :: []) = [['a', 'b'], ['c']] := by decide

example : tokenList nonAlnum ('!' :: '!' :: 'a' :: []) = [['a']] := by decide

example : tokenList nonAlnum ([] : List Char) = [] := by decide

example : tokenList nonAlnum ('!' :: '!' :: []) = [[]] := by decide

example : extract_features 3 262144 ('a' :: ' ' :: 'b' :: '.' :: '.' :: []) ≠ [] := by decide

example : extract_features 3 262144 ('a' :: ' ' :: 'b' :: '.' :: []) = [] := by decide

example : compute_signature [(3, 5)] [2, 7] = [14] := by decide

example : jaccard_distance [1, 2] [1, 3] = 1 / 2 := by
  have h : matchCount [1, 2] [1, 3] = 1 := by decide
  rw [jaccard_distance, h]
  norm_num

/-! ## Tokenizer lemmas -/

/-- The state left behind by one generator call is strictly shorter than the
input, which justifies using the input length as fuel. -/
theorem tokenStep_snd_lt (d : Char → Bool) :
    ∀ sv : List Char, sv ≠ [] → (tokenStep d sv).2.length < sv.length := by
  intro sv
  induction sv with
  | nil => intro h; exact absurd rfl h
  | cons c cs ih =>
    intro _
    by_cases hc : d c
    · by_cases hcs : cs.isEmpty
      · simp [tokenStep, hc, hcs]
      · have hne : cs ≠ [] := by simpa [List.isEmpty_iff] using hcs
        have := ih hne
        simp only [tokenStep, hc, if_true, hcs, if_false]
        simpa using Nat.lt_succ_of_lt this
    · cases hfd : findDelim d cs with
      | none => simp [tokenStep, hc, hfd]
      | some j =>
        simp [tokenStep, hc, hfd, List.length_drop]
        omega

theorem tokenGo_congr (d : Char → Bool) :
    ∀ (f1 f2 : Nat) (sv : List Char), sv.length ≤ f1 → sv.length ≤ f2 →
      tokenGo d f1 sv = tokenGo d f2 sv := by
  intro f1
  induction f1 with
  | zero =>
    intro f2 sv h1 _
    have : sv = [] := by
      cases sv with
      | nil => rfl
      | cons a l => simp at h1
    subst this
    cases f2 <;> simp [tokenGo]
  | succ f1 ih =>
    intro f2 sv h1 h2
    cases f2 with
    | zero =>
      have : sv = [] := by
        cases sv with
        | nil => rfl
        | cons a l => simp at h2
      subst this
      simp [tokenGo]
    | succ f2 =>
      by_cases hsv : sv.isEmpty
      · simp [tokenGo, hsv]
      · have hne : sv ≠ [] := by simpa [List.isEmpty_iff] using hsv
        have hlt := tokenStep_snd_lt d sv hne
        simp only [tokenGo, hsv, if_false]
        rw [ih f2 (tokenStep d sv).2 (by omega) (by omega)]

/-- Unfolding equation for the token stream: while the generator reports
itself non-exhausted, yield one token and continue on the new state. -/
theorem tokenList_eq (d : Char → Bool) (sv : List Char) :
    tokenList d sv =
      if sv.isEmpty then [] else (tokenStep d sv).1 :: tokenList d (tokenStep d sv).2 := by
  by_cases hsv : sv.isEmpty
  · have : sv = [] := by simpa [List.isEmpty_iff] using hsv
    subst this
    simp [tokenList, tokenGo]
  · have hne : sv ≠ [] := by simpa [List.isEmpty_iff] using hsv
    have hlt := tokenStep_snd_lt d sv hne
    have hpos : 0 < sv.length := List.length_pos.mpr hne
    obtain ⟨n, hn⟩ : ∃ n, sv.length = n + 1 := ⟨sv.length - 1, by omega⟩
    simp only [tokenList, hn, tokenGo, hsv, if_false]
    rw [tokenGo_congr d n (tokenStep d sv).2.length (tokenStep d sv).2 (by omega) le_rfl]

theorem runsGo_congr (d : Char → Bool) :
    ∀ (f1 f2 : Nat) (sv : List Char), sv.length ≤ f1 → sv.length ≤ f2 →
      runsGo d f1 sv = runsGo d f2 sv := by
  intro f1
  induction f1 with
  | zero =>
    intro f2 sv h1 _
    have : sv = [] := by
      cases sv with
      | nil => rfl
      | cons a l => simp at h1
    subst this
    cases f2 <;> simp [runsGo]
  | succ f1 ih =>
    intro f2 sv h1 h2
    cases f2 with
    | zero =>
      have : sv = [] := by
        cases sv with
        | nil => rfl
        | cons a l => simp at h2
      subst this
      simp [runsGo]
    | succ f2 =>
      cases sv with
      | nil => simp [runsGo]
      | cons c cs =>
        by_cases hc : d c
        · simp only [runsGo, hc, if_true]
          exact ih f2 cs (by simp at h1; omega) (by simp at h2; omega)
        · cases hfd : findDelim d cs with
          | none => simp [runsGo, hc, hfd]
          | some j =>
            simp only [runsGo, hc, Bool.false_eq_true, if_false, hfd]
            rw [ih f2 (cs.drop j) (by simp at h1; simp [List.length_drop]; omega)
              (by simp at h2; simp [List.length_drop]; omega)]

theorem maxRuns_nil (d : Char → Bool) : maxRuns d [] = [] := rfl

theorem maxRuns_delim (d : Char → Bool) (c : Char) (cs : List Char) (hc : d c = true) :
    maxRuns d (c :: cs) = maxRuns d cs := by
  simp only [maxRuns, List.length_cons, runsGo, hc, if_true]

theorem maxRuns_run_none (d : Char → Bool) (c : Char) (cs : List Char) (hc : d c = false)
    (hfd : findDelim d cs = none) : maxRuns d (c :: cs) = [c :: cs] := by
  simp [maxRuns, runsGo, hc, hfd]

theorem maxRuns_run_some (d : Char → Bool) (c : Char) (cs : List Char) (j : Nat)
    (hc : d c = false) (hfd : findDelim d cs = some j) :
    maxRuns d (c :: cs) = (c :: cs.take j) :: maxRuns d (cs.drop j) := by
  simp only [maxRuns, List.length_cons, runsGo, hc, Bool.false_eq_true, if_false, hfd]
  rw [runsGo_congr d cs.length (cs.drop j).length (cs.drop j)
    (by simp [List.length_drop]) le_rfl]

/-- The character at a found delimiter position is a delimiter, and dropping
up to it exposes it as the head of the remaining suffix. -/
theorem findDelim_some_drop (d : Char → Bool) :
    ∀ (cs : List Char) (j : Nat), findDelim d cs = some j →
      ∃ e, d e = true ∧ cs.drop j = e :: cs.drop (j + 1) := by
  intro cs
  induction cs with
  | nil => intro j h; simp [findDelim] at h
  | cons c cs ih =>
    intro j h
    by_cases hc : d c
    · simp only [findDelim, hc, if_true, Option.some.injEq] at h
      subst h
      exact ⟨c, hc, by simp⟩
    · simp only [findDelim, hc, Bool.false_eq_true, if_false, Option.map_eq_some'] at h
      obtain ⟨j1, hj1, rfl⟩ := h
      obtain ⟨e, he, hdrop⟩ := ih j1 hj1
      exact ⟨e, he, by simpa [List.drop_succ_cons] using hdrop⟩

/-- Characterization of the token stream: the non-empty tokens are exactly
the maximal non-delimiter runs of the input, and every token other than
possibly the last one is non-empty (the final token is the empty one the
generator yields when the remaining input is a non-empty run of
delimiters). -/
theorem tokens_split (d : Char → Bool) :
    ∀ (n : Nat) (sv : List Char), sv.length ≤ n →
      (tokenList d sv).filter (fun t => !t.isEmpty) = maxRuns d sv ∧
      ∀ t ∈ (tokenList d sv).dropLast, t ≠ [] := by
  intro n
  induction n with
  | zero =>
    intro sv h
    have hnil : sv = [] := by
      cases sv with
      | nil => rfl
      | cons a l => simp at h
    subst hnil
    simp [tokenList, tokenGo, maxRuns, runsGo]
  | succ m ih =>
    intro sv h
    cases sv with
    | nil => simp [tokenList, tokenGo, maxRuns, runsGo]
    | cons c cs =>
      have hlen : cs.length ≤ m := by simp at h; omega
      by_cases hc : d c
      · by_cases hcs : cs = []
        · subst hcs
          have h1 : tokenList d [c] = [[]] := by
            rw [tokenList_eq]
            simp [tokenStep, hc, tokenList, tokenGo]
          rw [h1, maxRuns_delim d c [] hc, maxRuns_nil]
          simp
        · have hstep : tokenStep d (c :: cs) = tokenStep d cs := by
            simp [tokenStep, hc, List.isEmpty_iff, hcs]
          have h1 : tokenList d (c :: cs) = tokenList d cs := by
            rw [tokenList_eq d (c :: cs), tokenList_eq d cs, hstep]
            simp [List.isEmpty_iff, hcs]
          rw [h1, maxRuns_delim d c cs hc]
          exact ih cs hlen
      · cases hfd : findDelim d cs with
        | none =>
          have h1 : tokenList d (c :: cs) = [c :: cs] := by
            rw [tokenList_eq]
            simp [tokenStep, hc, hfd, tokenList, tokenGo]
          rw [h1, maxRuns_run_none d c cs (by simpa using hc) hfd]
          simp
        | some j =>
          have hstep : tokenStep d (c :: cs) = (c :: cs.take j, cs.drop (j + 1)) := by
            simp [tokenStep, hc, hfd]
          have h1 : tokenList d (c :: cs) =
              (c :: cs.take j) :: tokenList d (cs.drop (j + 1)) := by
            rw [tokenList_eq, hstep]
            simp
          obtain ⟨e, he, hdrop⟩ := findDelim_some_drop d cs j hfd
          have h2 : maxRuns d (c :: cs) =
              (c :: cs.take j) :: maxRuns d (cs.drop (j + 1)) := by
            rw [maxRuns_run_some d c cs j (by simpa using hc) hfd, hdrop,
              maxRuns_delim d e _ he]
          have hrest := ih (cs.drop (j + 1)) (by simp [List.length_drop]; omega)
          constructor
          · rw [h1, h2]
            simp [List.filter_cons, hrest.1]
          · rw [h1]
            cases hL : tokenList d (cs.drop (j + 1)) with
            | nil => simp
            | cons y L =>
              rw [hL] at hrest
              intro t ht
              rw [List.dropLast_cons₂] at ht
              rcases List.mem_cons.mp ht with rfl | ht2
              · simp
              · exact hrest.2 t ht2

/-! ## MinHasher lemmas -/

theorem getD_of_lt {α : Type} (l : List α) (i : Nat) (dflt : α) (h : i < l.length) :
    l.getD i dflt = l[i] := by
  simp [List.getD_eq_getElem?_getD, List.getElem?_eq_getElem h]

theorem kHashPrime_pos : 0 < kHashPrime := by norm_num [kHashPrime]

theorem hashVal_lt (a b f : Nat) : hashVal a b f < kHashPrime :=
  Nat.mod_lt _ kHashPrime_pos

/-- Under the bounds that actually hold in the pipeline (coefficients below
kHashPrime, feature indices below num_features, both below 2 to the 32),
the uint64_t arithmetic of the source never wraps, so the hash value is the
exact arithmetic of the specification formula. -/
theorem hashVal_eq (a b f : Nat) (ha : a < 2 ^ 32) (hb : b < 2 ^ 32) (hf : f < 2 ^ 32) :
    hashVal a b f = ((1 + f) * a + b) % kHashPrime := by
  have h1 : 1 + f < 2 ^ 64 := by norm_num at hf ⊢; omega
  have h2 : (1 + f) * a ≤ 2 ^ 32 * (2 ^ 32 - 1) := by
    apply Nat.mul_le_mul <;> omega
  have h3 : (1 + f) * a + b < 2 ^ 64 := by norm_num at h2 hb ⊢; omega
  have e1 : (1 + f) % 2 ^ 64 = 1 + f := Nat.mod_eq_of_lt h1
  have e2 : (1 + f) * a % 2 ^ 64 = (1 + f) * a := Nat.mod_eq_of_lt (by omega)
  have e3 : ((1 + f) * a + b) % 2 ^ 64 = (1 + f) * a + b := Nat.mod_eq_of_lt h3
  rw [hashVal, e1, e2, e3]

theorem sig_update_length (ab : List (Nat × Nat)) (s : List Nat) (f : Nat) :
    (sig_update ab s f).length = min s.length ab.length := by
  simp [sig_update]

theorem sig_update_getElem (ab : List (Nat × Nat)) (s : List Nat) (f i : Nat)
    (h1 : i < s.length) (h2 : i < ab.length) :
    (sig_update ab s f).getD i 0 = min (s.getD i 0) (hashVal (ab.getD i (0, 0)).1 (ab.getD i (0, 0)).2 f) := by
  have hz : i < (s.zip ab).length := by simp; omega
  have hm : i < (sig_update ab s f).length := by rw [sig_update_length]; omega
  rw [getD_of_lt _ _ _ hm, getD_of_lt _ _ _ h1, getD_of_lt _ _ _ h2]
  simp [sig_update, List.getElem_zip]

theorem foldl_sig_length (ab : List (Nat × Nat)) :
    ∀ (fs : List Nat) (s : List Nat), s.length = ab.length →
      (fs.foldl (sig_update ab) s).length = ab.length := by
  intro fs
  induction fs with
  | nil => intro s hs; simpa using hs
  | cons f fs ih =>
    intro s hs
    rw [List.foldl_cons]
    exact ih _ (by rw [sig_update_length, hs]; omega)

theorem compute_signature_length (ab : List (Nat × Nat)) (fs : List Nat) :
    (compute_signature ab fs).length = ab.length :=
  foldl_sig_length ab fs _ (by simp)

theorem foldl_sig_getD (ab : List (Nat × Nat)) (i : Nat) (hi : i < ab.length) :
    ∀ (fs : List Nat) (s : List Nat), s.length = ab.length →
      (fs.foldl (sig_update ab) s).getD i 0 =
        fs.foldl (fun m f => min m (hashVal (ab.getD i (0, 0)).1 (ab.getD i (0, 0)).2 f))
          (s.getD i 0) := by
  intro fs
  induction fs with
  | nil => intro s _; rfl
  | cons f fs ih =>
    intro s hs
    rw [List.foldl_cons, List.foldl_cons,
      ih _ (by rw [sig_update_length, hs]; omega),
      sig_update_getElem ab s f i (by omega) hi]

/-- Slotwise value of the signature: slot i is the fold of the binary
minimum of the per-feature hashes over the sentinel. -/
theorem compute_signature_getD (ab : List (Nat × Nat)) (fs : List Nat) (i : Nat)
    (hi : i < ab.length) :
    (compute_signature ab fs).getD i 0 =
      fs.foldl (fun m f => min m (hashVal (ab.getD i (0, 0)).1 (ab.getD i (0, 0)).2 f))
        kHashPrime := by
  have hrep : (List.replicate ab.length kHashPrime).getD i 0 = kHashPrime := by
    simp [List.getD_eq_getElem?_getD, List.getElem?_replicate, hi]
  rw [compute_signature, foldl_sig_getD ab i hi fs _ (by simp), hrep]

theorem foldl_min_le_init : ∀ (l : List Nat) (init : Nat), l.foldl min init ≤ init := by
  intro l
  induction l with
  | nil => intro init; exact le_rfl
  | cons a l ih =>
    intro init
    calc l.foldl min (min init a) ≤ min init a := ih _
    _ ≤ init := min_le_left _ _

theorem foldl_min_le_mem : ∀ (l : List Nat) (init x : Nat), x ∈ l → l.foldl min init ≤ x := by
  intro l
  induction l with
  | nil => intro _ x hx; simp at hx
  | cons a l ih =>
    intro init x hx
    rcases List.mem_cons.mp hx with rfl | hx2
    · calc l.foldl min (min init x) ≤ min init x := foldl_min_le_init _ _
      _ ≤ x := min_le_right _ _
    · exact ih _ x hx2

theorem foldl_min_eq_or_mem : ∀ (l : List Nat) (init : Nat),
    l.foldl min init = init ∨ l.foldl min init ∈ l := by
  intro l
  induction l with
  | nil => intro init; left; rfl
  | cons a l ih =>
    intro init
    rcases ih (min init a) with h | h
    · rw [List.foldl_cons, h]
      rcases le_total init a with hle | hle
      · left; exact min_eq_left hle
      · right; rw [min_eq_right hle]; exact List.mem_cons_self a l
    · right
      rw [List.foldl_cons]
      exact List.mem_cons_of_mem a h

/-! ## Distance lemmas -/

theorem matchCount_self : ∀ s : List Nat, matchCount s s = s.length := by
  intro s
  induction s with
  | nil => rfl
  | cons a s ih =>
    simp only [matchCount, List.zip_cons_cons, List.countP_cons] at ih ⊢
    simp [ih, matchCount]

theorem jd_self (s : List Nat) (hs : s ≠ []) : jaccard_distance s s = 0 := by
  have hlen : s.length ≠ 0 := by simpa [List.length_eq_zero] using hs
  rw [jaccard_distance, matchCount_self]
  rw [div_self (by exact_mod_cast hlen)]
  ring

/-! ## Permutation invariance of signatures -/

theorem sig_update_comm (ab : List (Nat × Nat)) (s : List Nat) (f1 f2 : Nat) :
    sig_update ab (sig_update ab s f1) f2 = sig_update ab (sig_update ab s f2) f1 := by
  apply List.ext_getElem
  · simp [sig_update]
  · intro i h1 h2
    simp only [sig_update, List.getElem_map, List.getElem_zip]
    exact min_right_comm _ _ _

/-- The signature does not depend on the iteration order of the feature
set: the fold over any permutation of the feature list gives the same
vector.  This is the fact that makes the unordered_set iteration order of
the source irrelevant to its output. -/
theorem compute_signature_perm (ab : List (Nat × Nat)) {fs1 fs2 : List Nat}
    (h : fs1.Perm fs2) : compute_signature ab fs1 = compute_signature ab fs2 := by
  have key : ∀ init : List Nat, fs1.foldl (sig_update ab) init = fs2.foldl (sig_update ab) init := by
    induction h with
    | nil => intro init; rfl
    | cons x _ ih => intro init; simp only [List.foldl_cons]; exact ih _
    | swap x y l => intro init; simp only [List.foldl_cons, sig_update_comm]
    | trans _ _ ih1 ih2 => intro init; exact (ih1 init).trans (ih2 init)
  exact key _

/-! ## Hash family lemmas -/

theorem hashFamily_length (n seed : Nat) : (hashFamily n seed).length = n := by
  simp [hashFamily]

theorem hashFamily_getD (n seed i : Nat) (hi : i < n) :
    (hashFamily n seed).getD i (0, 0) =
      (uniform_int 1 (kHashPrime - 1) (mt19937_stream seed (2 * i)),
       uniform_int 0 (kHashPrime - 1) (mt19937_stream seed (2 * i + 1))) := by
  have hlen : i < (hashFamily n seed).length := by rw [hashFamily_length]; omega
  rw [getD_of_lt _ _ _ hlen]
  simp [hashFamily]

theorem uniform_int_bounds (lo hi raw : Nat) (h : lo ≤ hi) :
    lo ≤ uniform_int lo hi raw ∧ uniform_int lo hi raw ≤ hi := by
  have hm := Nat.mod_lt raw (show 0 < hi + 1 - lo by omega)
  unfold uniform_int
  omega

/-! ## Feature extraction lemmas -/

/-- While the total number of tokens stays below ngrams the window only
ever grows and no feature index is inserted. -/
theorem featStep_short (ngrams nf : Nat) :
    ∀ (tokens : List (List Char)) (st : List (List Char) × List Nat),
      st.1.length + tokens.length < ngrams →
      tokens.foldl (featStep ngrams nf) st = (st.1 ++ tokens, st.2) := by
  intro tokens
  induction tokens with
  | nil => intro st _; simp
  | cons t tokens ih =>
    intro st hlt
    have hlen : st.1.length + 1 < ngrams := by simp at hlt; omega
    have hw : ¬ngrams < st.1.length + 1 := by omega
    have hne : ¬(st.1.length + 1 = ngrams) := by omega
    rw [List.foldl_cons]
    rw [show featStep ngrams nf st t = (st.1 ++ [t], st.2) by
      simp [featStep, hw, hne]]
    rw [ih (st.1 ++ [t], st.2) (by simp at hlt ⊢; omega)]
    simp

/-- A document whose token stream is shorter than ngrams produces no
feature index at all. -/
theorem extract_features_short (ngrams nf : Nat) (text : List Char)
    (h : (tokenList nonAlnum text).length < ngrams) :
    extract_features ngrams nf text = [] := by
  rw [extract_features, featStep_short ngrams nf _ _ (by simpa using h)]

/-- An empty feature set leaves every slot of the signature at the
sentinel. -/
theorem compute_signature_nil (ab : List (Nat × Nat)) :
    compute_signature ab [] = List.replicate ab.length kHashPrime := rfl

/-- With an empty hash family every signature is the empty vector; this is
the state reached when num_hashes is zero. -/
theorem compute_signature_nil_family : ∀ fs : List Nat, compute_signature [] fs = [] := by
  intro fs
  rw [compute_signature]
  induction fs with
  | nil => rfl
  | cons f fs ih => simpa [sig_update] using ih

/-! ## Orchestrator lemmas -/

theorem sigs_getD (cfg : DedupConfig) (docs : List (List Char)) (k : Nat)
    (hk : k < docs.length) :
    (docs.map fun doc =>
        compute_signature cfg.family (extract_features cfg.ngrams cfg.num_features doc)).getD k [] =
      sigOf cfg docs k := by
  have hk2 : k < (docs.map fun doc =>
      compute_signature cfg.family (extract_features cfg.ngrams cfg.num_features doc)).length := by
    simpa using hk
  rw [getD_of_lt _ _ _ hk2, sigOf, getD_of_lt _ _ _ hk]
  simp

/-- Membership in the report list of Deduplicator::process: exactly the
ordered pairs of document positions whose signature distance is strictly
below the threshold, paired with one minus that distance. -/
theorem mem_process_iff (cfg : DedupConfig) (docs : List (List Char)) (p : Nat × Nat × ℚ) :
    p ∈ process cfg docs ↔
      ∃ i j, i < j ∧ j < docs.length ∧
        jaccard_distance (sigOf cfg docs i) (sigOf cfg docs j) < cfg.threshold ∧
        p = (i, j, 1 - jaccard_distance (sigOf cfg docs i) (sigOf cfg docs j)) := by
  simp only [process, List.mem_flatMap, List.mem_filterMap, List.mem_filter, List.mem_range,
    Option.ite_none_right_eq_some, Option.some.injEq, decide_eq_true_eq]
  constructor
  · rintro ⟨i, hi, j, ⟨hj, hij⟩, hlt, rfl⟩
    rw [sigs_getD cfg docs i hi, sigs_getD cfg docs j hj] at hlt ⊢
    exact ⟨i, j, hij, hj, hlt, rfl⟩
  · rintro ⟨i, j, hij, hj, hlt, rfl⟩
    have hi : i < docs.length := by omega
    refine ⟨i, hi, j, ⟨hj, hij⟩, ?_, ?_⟩
    · rwa [sigs_getD cfg docs i hi, sigs_getD cfg docs j hj]
    · rw [sigs_getD cfg docs i hi, sigs_getD cfg docs j hj]

/-! ## Claims -/

/-- C1: for every feature set, compute_signature returns a vector of length
num_hashes in which slot i is the minimum over all features f of
((1 + f) * a_i + b_i) mod kHashPrime, and the sentinel kHashPrime when the
feature set is empty.  The bounds hypotheses state what the pipeline
guarantees: coefficients drawn below kHashPrime and feature indices reduced
modulo num_features, all below 2 to the 32, so the uint64_t arithmetic of
the source is exact. -/
theorem claim_minhash_signature (ab : List (Nat × Nat)) (fs : List Nat) (i : Nat)
    (hab : ∀ p ∈ ab, p.1 < 2 ^ 32 ∧ p.2 < 2 ^ 32)
    (hfs : ∀ f ∈ fs, f < 2 ^ 32) (hi : i < ab.length) :
    (compute_signature ab fs).length = ab.length ∧
    (fs = [] → (compute_signature ab fs).getD i 0 = kHashPrime) ∧
    (fs ≠ [] →
      (compute_signature ab fs).getD i 0 ∈
        fs.map (fun f => ((1 + f) * (ab.getD i (0, 0)).1 + (ab.getD i (0, 0)).2) % kHashPrime) ∧
      ∀ x ∈ fs.map (fun f => ((1 + f) * (ab.getD i (0, 0)).1 + (ab.getD i (0, 0)).2) % kHashPrime),
        (compute_signature ab fs).getD i 0 ≤ x) := by
  have hmem : ab.getD i (0, 0) ∈ ab := by
    rw [getD_of_lt _ _ _ hi]
    exact List.getElem_mem _
  have ha := (hab _ hmem).1
  have hb := (hab _ hmem).2
  have hmap : fs.map (fun f => ((1 + f) * (ab.getD i (0, 0)).1 + (ab.getD i (0, 0)).2) % kHashPrime)
      = fs.map (hashVal (ab.getD i (0, 0)).1 (ab.getD i (0, 0)).2) :=
    List.map_congr_left fun f hf => (hashVal_eq _ _ f ha hb (hfs f hf)).symm
  have hslot : (compute_signature ab fs).getD i 0
      = (fs.map (hashVal (ab.getD i (0, 0)).1 (ab.getD i (0, 0)).2)).foldl min kHashPrime := by
    rw [compute_signature_getD ab fs i hi, List.foldl_map]
  refine ⟨compute_signature_length ab fs, ?_, ?_⟩
  · intro h
    subst h
    rw [hslot]
    rfl
  · intro hne
    rw [hmap, hslot]
    have hLne : fs.map (hashVal (ab.getD i (0, 0)).1 (ab.getD i (0, 0)).2) ≠ [] := by
      simp [List.map_eq_nil_iff, hne]
    have hbound : ∀ x ∈ fs.map (hashVal (ab.getD i (0, 0)).1 (ab.getD i (0, 0)).2),
        x < kHashPrime := by
      intro x hx
      obtain ⟨f, _, rfl⟩ := List.mem_map.mp hx
      exact hashVal_lt _ _ _
    constructor
    · rcases foldl_min_eq_or_mem (fs.map (hashVal (ab.getD i (0, 0)).1 (ab.getD i (0, 0)).2))
        kHashPrime with h | h
      · exfalso
        obtain ⟨y, hy⟩ := List.exists_mem_of_ne_nil _ hLne
        have h1 := foldl_min_le_mem _ kHashPrime y hy
        have h2 := hbound y hy
        rw [h] at h1
        omega
      · exact h
    · intro x hx
      exact foldl_min_le_mem _ kHashPrime x hx

theorem claim_minhash_signature_witness :
    (compute_signature [(3, 5)] [2, 7]).getD 0 0 ∈
      [2, 7].map (fun f =>
        ((1 + f) * (([(3, 5)] : List (Nat × Nat)).getD 0 (0, 0)).1 +
          (([(3, 5)] : List (Nat × Nat)).getD 0 (0, 0)).2) % kHashPrime) ∧
    ∀ x ∈ [2, 7].map (fun f =>
        ((1 + f) * (([(3, 5)] : List (Nat × Nat)).getD 0 (0, 0)).1 +
          (([(3, 5)] : List (Nat × Nat)).getD 0 (0, 0)).2) % kHashPrime),
      (compute_signature [(3, 5)] [2, 7]).getD 0 0 ≤ x :=
  (claim_minhash_signature [(3, 5)] [2, 7] 0 (by decide) (by decide) (by decide)).2.2
    (by decide)

/-- C2: the orchestrator considers every ordered pair of document positions
and reports exactly those whose distance is strictly below the threshold,
with similarity one minus the distance; a pair whose distance equals the
threshold exactly is never reported. -/
theorem claim_process_strict_threshold (cfg : DedupConfig) (docs : List (List Char)) :
    (∀ p, p ∈ process cfg docs ↔ ∃ i j, i < j ∧ j < docs.length ∧
        jaccard_distance (sigOf cfg docs i) (sigOf cfg docs j) < cfg.threshold ∧
        p = (i, j, 1 - jaccard_distance (sigOf cfg docs i) (sigOf cfg docs j))) ∧
    ∀ i j s, jaccard_distance (sigOf cfg docs i) (sigOf cfg docs j) = cfg.threshold →
      (i, j, s) ∉ process cfg docs := by
  refine ⟨fun p => mem_process_iff cfg docs p, ?_⟩
  intro i j s heq hmem
  obtain ⟨i2, j2, hij, hj, hlt, hp⟩ := (mem_process_iff cfg docs _).mp hmem
  obtain ⟨rfl, rfl, -⟩ : i = i2 ∧ j = j2 ∧
      s = 1 - jaccard_distance (sigOf cfg docs i2) (sigOf cfg docs j2) := by
    simpa [Prod.ext_iff] using hp
  rw [heq] at hlt
  exact lt_irrefl _ hlt

theorem claim_process_strict_threshold_witness :
    (0, 1, (1 : ℚ)) ∈ process (mkDeduplicator 3 2 (1 / 2) 8) [['a'], ['a']] := by
  have hsig : sigOf (mkDeduplicator 3 2 (1 / 2) 8) [['a'], ['a']] 0 =
      sigOf (mkDeduplicator 3 2 (1 / 2) 8) [['a'], ['a']] 1 := by decide
  have hne : sigOf (mkDeduplicator 3 2 (1 / 2) 8) [['a'], ['a']] 1 ≠ [] := by decide
  have hjd : jaccard_distance (sigOf (mkDeduplicator 3 2 (1 / 2) 8) [['a'], ['a']] 0)
      (sigOf (mkDeduplicator 3 2 (1 / 2) 8) [['a'], ['a']] 1) = 0 := by
    rw [hsig]
    exact jd_self _ hne
  apply ((claim_process_strict_threshold (mkDeduplicator 3 2 (1 / 2) 8) [['a'], ['a']]).1
    (0, 1, (1 : ℚ))).mpr
  refine ⟨0, 1, by omega, by simp, ?_, ?_⟩
  · rw [hjd]
    norm_num [mkDeduplicator]
  · rw [hjd]
    norm_num

/-- C3: byte-identical documents have identical feature sets, identical
signatures, distance exactly zero, and are reported with similarity one for
any positive threshold (the hash family being non-empty, as the positive
num_hashes of the configuration guarantees). -/
theorem claim_exact_duplicates (cfg : DedupConfig) (docs : List (List Char)) (i j : Nat)
    (hij : i < j) (hj : j < docs.length)
    (heq : docs.getD i [] = docs.getD j []) (hfam : cfg.family ≠ [])
    (hpos : 0 < cfg.threshold) :
    extract_features cfg.ngrams cfg.num_features (docs.getD i []) =
      extract_features cfg.ngrams cfg.num_features (docs.getD j []) ∧
    sigOf cfg docs i = sigOf cfg docs j ∧
    jaccard_distance (sigOf cfg docs i) (sigOf cfg docs j) = 0 ∧
    (i, j, (1 : ℚ)) ∈ process cfg docs := by
  have hfe : extract_features cfg.ngrams cfg.num_features (docs.getD i []) =
      extract_features cfg.ngrams cfg.num_features (docs.getD j []) := by rw [heq]
  have hsig : sigOf cfg docs i = sigOf cfg docs j := by rw [sigOf, sigOf, heq]
  have hne : sigOf cfg docs j ≠ [] := by
    rw [sigOf]
    intro hnil
    apply hfam
    have hlen := congrArg List.length hnil
    rw [compute_signature_length] at hlen
    simpa [List.length_eq_zero] using hlen
  have hjd : jaccard_distance (sigOf cfg docs i) (sigOf cfg docs j) = 0 := by
    rw [hsig]
    exact jd_self _ hne
  refine ⟨hfe, hsig, hjd, ?_⟩
  apply (mem_process_iff cfg docs _).mpr
  refine ⟨i, j, hij, hj, ?_, ?_⟩
  · rw [hjd]
    exact hpos
  · rw [hjd]
    norm_num

theorem claim_exact_duplicates_witness :
    (0, 1, (1 : ℚ)) ∈ process (mkDeduplicator 3 2 (1 / 2) 8) [['b'], ['b']] :=
  (claim_exact_duplicates (mkDeduplicator 3 2 (1 / 2) 8) [['b'], ['b']] 0 1
    (by omega) (by simp) (by decide) (by decide) (by norm_num [mkDeduplicator])).2.2.2

/-- C4: the pipeline is deterministic: the hash family, the per-document
signatures, and the report list are pure functions of the seed, the
configuration, and the corpus, so two runs agree bit for bit; moreover the
signature does not depend on the iteration order of the unordered feature
set, the one run-to-run degree of freedom the source container leaves. -/
theorem claim_determinism (n seed : Nat) (cfg : DedupConfig) (docs : List (List Char))
    (ab : List (Nat × Nat)) (fs1 fs2 : List Nat) (hperm : fs1.Perm fs2) :
    hashFamily n seed = hashFamily n seed ∧
    docs.map (fun doc =>
        compute_signature cfg.family (extract_features cfg.ngrams cfg.num_features doc)) =
      docs.map (fun doc =>
        compute_signature cfg.family (extract_features cfg.ngrams cfg.num_features doc)) ∧
    process cfg docs = process cfg docs ∧
    compute_signature ab fs1 = compute_signature ab fs2 :=
  ⟨rfl, rfl, rfl, compute_signature_perm ab hperm⟩

theorem claim_determinism_witness :
    compute_signature [(1, 0)] [5, 7] = compute_signature [(1, 0)] [7, 5] :=
  (claim_determinism 1 1 (mkDeduplicator 1 1 0 1) [] [(1, 0)] [5, 7] [7, 5]
    (by decide)).2.2.2

/-- C5 counterexample: the constructor performs no validation.  With
ngrams = 0 (an invalid configuration under the spec predicate configOk)
construction succeeds and returns an ordinary Deduplicator state instead of
failing fast. -/
theorem claim_config_validation_cex :
    configOk 0 13 262144 (3 / 10) = false ∧
    mkDeduplicator 0 13 (3 / 10) 262144 =
      { ngrams := 0, num_features := 262144, threshold := 3 / 10,
        family := hashFamily 13 1 } := by
  refine ⟨?_, rfl⟩
  simp [configOk]

/-- C5 amended: construction never fails and never validates: for every
argument tuple, including every tuple configOk rejects, the constructor
returns the state holding exactly those arguments, with a hash family of
the requested length. -/
theorem claim_config_no_validation (ngrams num_hashes : Nat) (threshold : ℚ)
    (nf seed : Nat) :
    mkDeduplicator ngrams num_hashes threshold nf seed =
      { ngrams := ngrams, num_features := nf, threshold := threshold,
        family := hashFamily num_hashes seed } ∧
    (mkDeduplicator ngrams num_hashes threshold nf seed).family.length = num_hashes :=
  ⟨rfl, hashFamily_length num_hashes seed⟩

/-- C6 counterexample: on the input consisting of one alphanumeric byte
followed by two delimiter bytes, the generator converts to true before its
second call and that call yields the empty token, so a token produced while
the generator reports itself non-exhausted is empty. -/
theorem claim_tokenizer_cex :
    tokenList nonAlnum ('a' :: '!' :: '!' :: []) = [['a'], []] ∧
    ([] : List Char) ∈ tokenList nonAlnum ('a' :: '!' :: '!' :: []) := by
  exact ⟨by decide, by decide⟩

/-- C6 amended: the non-empty tokens yielded by the tokenizer are exactly
the maximal runs of non-delimiter bytes, in order, with consecutive
delimiters collapsing; but when the remaining input after the last run is a
non-empty run of delimiters, one final empty token is yielded, so only
every token before the last is guaranteed non-empty. -/
theorem claim_tokenizer_maximal_runs (d : Char → Bool) (sv : List Char) :
    (tokenList d sv).filter (fun t => !t.isEmpty) = maxRuns d sv ∧
    ∀ t ∈ (tokenList d sv).dropLast, t ≠ [] :=
  tokens_split d sv.length sv le_rfl

theorem claim_tokenizer_maximal_runs_witness :
    (tokenList nonAlnum ('a' :: '!' :: 'b' :: '!' :: '!' :: [])).filter
        (fun t => !t.isEmpty) =
      maxRuns nonAlnum ('a' :: '!' :: 'b' :: '!' :: '!' :: []) ∧
    (['b'] : List Char) ≠ [] :=
  ⟨(claim_tokenizer_maximal_runs nonAlnum ('a' :: '!' :: 'b' :: '!' :: '!' :: [])).1,
   (claim_tokenizer_maximal_runs nonAlnum ('a' :: '!' :: 'b' :: '!' :: '!' :: [])).2
     ['b'] (by decide)⟩

/-- C7 counterexample: the document "a b.." contains two tokens in the
spec's sense (maximal alphanumeric runs), fewer than ngrams = 3, yet its
FeatureSet is NOT empty: the tokenizer additionally yields a final empty
token for the trailing delimiter run, the window reaches three entries, and
a feature index is inserted. -/
theorem claim_degenerate_cex :
    (maxRuns nonAlnum ('a' :: ' ' :: 'b' :: '.' :: '.' :: [])).length = 2 ∧
    2 < 3 ∧
    extract_features 3 262144 ('a' :: ' ' :: 'b' :: '.' :: '.' :: []) ≠ [] := by
  exact ⟨by decide, by omega, by decide⟩

/-- C7 amended: every document for which the token stream yielded by the
tokenizer (including its possible final empty token) is shorter than ngrams
produces an empty FeatureSet and an all-sentinel signature, and for any two
such documents under a non-empty hash family (num_hashes positive) the
distance is zero. -/
theorem claim_degenerate_short (ngrams nf : Nat) (fam : List (Nat × Nat))
    (t1 t2 : List Char)
    (h1 : (tokenList nonAlnum t1).length < ngrams)
    (h2 : (tokenList nonAlnum t2).length < ngrams) (hfam : fam ≠ []) :
    extract_features ngrams nf t1 = [] ∧
    extract_features ngrams nf t2 = [] ∧
    compute_signature fam (extract_features ngrams nf t1) =
      List.replicate fam.length kHashPrime ∧
    compute_signature fam (extract_features ngrams nf t2) =
      List.replicate fam.length kHashPrime ∧
    jaccard_distance (compute_signature fam (extract_features ngrams nf t1))
      (compute_signature fam (extract_features ngrams nf t2)) = 0 := by
  have he1 := extract_features_short ngrams nf t1 h1
  have he2 := extract_features_short ngrams nf t2 h2
  have hs1 : compute_signature fam (extract_features ngrams nf t1) =
      List.replicate fam.length kHashPrime := by rw [he1, compute_signature_nil]
  have hs2 : compute_signature fam (extract_features ngrams nf t2) =
      List.replicate fam.length kHashPrime := by rw [he2, compute_signature_nil]
  have hlen : fam.length ≠ 0 := by simpa [List.length_eq_zero] using hfam
  refine ⟨he1, he2, hs1, hs2, ?_⟩
  rw [hs1, hs2]
  apply jd_self
  intro hnil
  apply hlen
  simpa using congrArg List.length hnil

theorem claim_degenerate_short_witness :
    extract_features 3 8 ('a' :: []) = [] ∧
    extract_features 3 8 ('b' :: []) = [] ∧
    compute_signature [(1, 0)] (extract_features 3 8 ('a' :: [])) =
      List.replicate ([(1, 0)] : List (Nat × Nat)).length kHashPrime ∧
    compute_signature [(1, 0)] (extract_features 3 8 ('b' :: [])) =
      List.replicate ([(1, 0)] : List (Nat × Nat)).length kHashPrime ∧
    jaccard_distance (compute_signature [(1, 0)] (extract_features 3 8 ('a' :: [])))
      (compute_signature [(1, 0)] (extract_features 3 8 ('b' :: []))) = 0 :=
  claim_degenerate_short 3 8 [(1, 0)] ('a' :: []) ('b' :: [])
    (by decide) (by decide) (by decide)

/-- C8: for every signature the pipeline produces (any feature list hashed
under a non-empty family, as a positive num_hashes guarantees), the
distance of the signature to itself is zero. -/
theorem claim_self_distance (fam : List (Nat × Nat)) (fs : List Nat)
    (hfam : fam ≠ []) :
    jaccard_distance (compute_signature fam fs) (compute_signature fam fs) = 0 := by
  apply jd_self
  intro hnil
  apply hfam
  have hlen := congrArg List.length hnil
  rw [compute_signature_length] at hlen
  simpa [List.length_eq_zero] using hlen

theorem claim_self_distance_witness :
    jaccard_distance (compute_signature [(1, 0)] [4]) (compute_signature [(1, 0)] [4]) = 0 :=
  claim_self_distance [(1, 0)] [4] (by decide)

/-- C9: every coefficient pair the constructor draws satisfies a_i between
1 and kHashPrime - 1 and b_i between 0 and kHashPrime - 1; in particular
a_i is never zero.  The family is an immutable value of the construction
(see hashFamily), so the bounds hold for the whole run. -/
theorem claim_family_ranges (n seed i : Nat) (hi : i < n) :
    1 ≤ ((hashFamily n seed).getD i (0, 0)).1 ∧
    ((hashFamily n seed).getD i (0, 0)).1 ≤ kHashPrime - 1 ∧
    ((hashFamily n seed).getD i (0, 0)).2 ≤ kHashPrime - 1 ∧
    ((hashFamily n seed).getD i (0, 0)).1 ≠ 0 := by
  rw [hashFamily_getD n seed i hi]
  have ha := uniform_int_bounds 1 (kHashPrime - 1) (mt19937_stream seed (2 * i))
    (by norm_num [kHashPrime])
  have hb := uniform_int_bounds 0 (kHashPrime - 1) (mt19937_stream seed (2 * i + 1))
    (by omega)
  exact ⟨ha.1, ha.2, hb.2, by omega⟩

theorem claim_family_ranges_witness :
    1 ≤ ((hashFamily 1 1).getD 0 (0, 0)).1 ∧
    ((hashFamily 1 1).getD 0 (0, 0)).1 ≤ kHashPrime - 1 ∧
    ((hashFamily 1 1).getD 0 (0, 0)).2 ≤ kHashPrime - 1 ∧
    ((hashFamily 1 1).getD 0 (0, 0)).1 ≠ 0 :=
  claim_family_ranges 1 1 0 (by omega)

/-- C10: jaccard_distance divides by the length of its first argument with
no guard.  The zero-length case is reachable: with an empty hash family
(num_hashes zero) every computed signature is the empty vector, and on two
empty vectors the division-by-zero branch executes and the result is the
junk value one (NaN in the double semantics of the source), not the
distance zero of identical signatures. -/
theorem claim_distance_unguarded :
    (∀ fs : List Nat, compute_signature [] fs = []) ∧
    jaccard_distance [] [] = 1 ∧ (1 : ℚ) ≠ 0 := by
  refine ⟨compute_signature_nil_family, ?_, by norm_num⟩
  simp [jaccard_distance, matchCount]
